import Mathlib

/-!
Verification development for the `migrate_logger` tool
(`src/migrate_logger.py`): a command-line utility that reads a file,
applies three whole-token regex substitutions
(`\blog\.Printf\b`, `\blog\.Println\b`, `\blog\.Print\b`, each replaced
by `logger.Info`), writes the result back, and reports status.

Strings are modelled as `List Char`.  Word characters (Python's `\w`,
which determines `\b` word boundaries) are modelled over the ASCII
range, matching the spec's file-format assumption of ASCII/UTF-8 source
text.  The scanner `reSubGo` models Python's `re.sub`: a single
left-to-right pass replacing each leftmost non-overlapping match; `\b`
at the start of the pattern (whose first character is a word character)
requires that the preceding character, if any, is not a word character,
and `\b` at the end requires that the following character, if any, is
not a word character.
-/

/-- Word character for Python's `\b` word boundary (`[A-Za-z0-9_]` over
the ASCII range). -/
def isWordChar (c : Char) : Bool :=
  (('a' ≤ c) && (c ≤ 'z')) || (('A' ≤ c) && (c ≤ 'Z')) ||
    (('0' ≤ c) && (c ≤ '9')) || (c == '_')

/-- The trailing `\b` of the patterns (all of which end in a word
character): satisfied at end of string or before a non-word character. -/
def boundaryAfter : List Char → Bool
  | [] => true
  | c :: _ => !isWordChar c

/-- A match of `\b<pat>\b` at the current scan position, where `pat`
starts and ends with a word character (true of all three source
patterns): the previous character must not be a word character
(`prev = false`), `pat` must be a literal prefix of the remaining
input, and the character after the match, if any, must not be a word
character. -/
def tokenMatch (pat : List Char) (prev : Bool) (s : List Char) : Bool :=
  !prev && pat.isPrefixOf s && boundaryAfter (List.drop pat.length s)

/-- Pattern of `re.sub(r'\blog\.Printf\b', ...)` (line 20 of the source). -/
def P1 : List Char := ['l', 'o', 'g', '.', 'P', 'r', 'i', 'n', 't', 'f']

/-- Pattern of `re.sub(r'\blog\.Println\b', ...)` (line 34 of the source). -/
def P2 : List Char := ['l', 'o', 'g', '.', 'P', 'r', 'i', 'n', 't', 'l', 'n']

/-- Pattern of `re.sub(r'\blog\.Print\b', ...)` (line 37 of the source). -/
def P3 : List Char := ['l', 'o', 'g', '.', 'P', 'r', 'i', 'n', 't']

/-- The common replacement text `logger.Info`. -/
def REP : List Char := ['l', 'o', 'g', 'g', 'e', 'r', '.', 'I', 'n', 'f', 'o']

/-- One `re.sub` pass, fuelled for structural recursion: scan left to
right; at each position either replace a whole-token match of `pat`
with `rep` and resume after the matched text, or emit the current
character and record whether it was a word character (the `\b` state
for the next position).  `fuel ≥ s.length` always suffices. -/
def reSubGo (pat rep : List Char) : Nat → Bool → List Char → List Char
  | 0, _, s => s
  | _ + 1, _, [] => []
  | fuel + 1, prev, c :: cs =>
    if tokenMatch pat prev (c :: cs) then
      rep ++ reSubGo pat rep fuel true (List.drop (pat.length - 1) cs)
    else
      c :: reSubGo pat rep fuel (isWordChar c) cs

/-- One `re.sub` pass starting from `\b` state `prev`. -/
def reSubFrom (pat rep : List Char) (prev : Bool) (s : List Char) : List Char :=
  reSubGo pat rep s.length prev s

/-- `re.sub(pattern, replacement, s)`: at the start of the string there
is no preceding word character. -/
def reSub (pat rep s : List Char) : List Char :=
  reSubFrom pat rep false s

/-- The content transformation of the source (lines 20, 34 and 37):
first `log.Printf`, then `log.Println`, then `log.Print` are each
replaced by `logger.Info` in separate whole-string passes. -/
def migrateContent (s : List Char) : List Char :=
  reSub P3 REP (reSub P2 REP (reSub P1 REP s))

/-- Combined single-pass scanner: at each position try the three
patterns (they are mutually exclusive at any one position) and replace
a whole-token match of any of them by `logger.Info`.  Used as the
common normal form when proving the three sequential passes equal in
any order. -/
def combGo : Nat → Bool → List Char → List Char
  | 0, _, s => s
  | _ + 1, _, [] => []
  | fuel + 1, prev, c :: cs =>
    if tokenMatch P1 prev (c :: cs) then
      REP ++ combGo fuel true (List.drop (P1.length - 1) cs)
    else if tokenMatch P2 prev (c :: cs) then
      REP ++ combGo fuel true (List.drop (P2.length - 1) cs)
    else if tokenMatch P3 prev (c :: cs) then
      REP ++ combGo fuel true (List.drop (P3.length - 1) cs)
    else
      c :: combGo fuel (isWordChar c) cs

/-- Combined scanner from `\b` state `prev`. -/
def combFrom (prev : Bool) (s : List Char) : List Char :=
  combGo s.length prev s

/-- Combined scanner over a whole string. -/
def comb (s : List Char) : List Char :=
  combFrom false s

/-- Does any of the three patterns have a whole-token match at the
current position? -/
def anyMatch (prev : Bool) (s : List Char) : Bool :=
  tokenMatch P1 prev s || tokenMatch P2 prev s || tokenMatch P3 prev s

/-- Position-by-position search: does the string, scanned from `\b`
state `prev`, contain a whole-token occurrence of any of the three
patterns at some position?  `hasAny false s = false` states that `s`
contains zero whole-token occurrences of the target tokens. -/
def hasAny : Bool → List Char → Bool
  | _, [] => false
  | prev, c :: cs => anyMatch prev (c :: cs) || hasAny (isWordChar c) cs

/-- The `\b` state after scanning `u` starting from state `prev`:
whether the last character of `u` (or the previous context, for empty
`u`) is a word character. -/
def prevA (prev : Bool) : List Char → Bool
  | [] => prev
  | c :: cs => prevA (isWordChar c) cs

/-- No whole-token match of any pattern occurs at any position inside
the prefix `a` of the string `a ++ rest` (matches may peek past `a`
into `rest`), scanning from `\b` state `prev`. -/
def cleanPre (prev : Bool) : List Char → List Char → Bool
  | [], _ => true
  | c :: a, rest => !anyMatch prev (c :: (a ++ rest)) && cleanPre (isWordChar c) a rest

/-- Does some nonempty suffix of the list start the replacement text
`logger.Info`?  For the tails of the three patterns this is false
(checked by `decide`), which is why a replacement can never be part of
a later whole-token match. -/
def tailsClash : List Char → Bool
  | [] => false
  | e :: σ => (e :: σ).isPrefixOf REP || tailsClash σ

/-- The combined scan restricted to the prefix `a` of the string
`a ++ rest`, fuelled like `combGo`: it emits the replacements and
copied characters produced while the scan position is still inside `a`
(match conditions peek past `a` into `rest`, exactly as the scan of the
full string does).  When a match would cross the border into `rest`
only its `a`-part is consumed; for the three source patterns such a
crossing match never exists (no nonempty proper suffix of a pattern can
start another occurrence, see `comb_embed`), so this branch is inert. -/
def combPreGo : Nat → Bool → List Char → List Char → List Char
  | 0, _, a, _ => a
  | _ + 1, _, [], _ => []
  | fuel + 1, prev, c :: a, rest =>
    if tokenMatch P1 prev (c :: (a ++ rest)) then
      REP ++ combPreGo fuel true (List.drop (P1.length - 1) a) rest
    else if tokenMatch P2 prev (c :: (a ++ rest)) then
      REP ++ combPreGo fuel true (List.drop (P2.length - 1) a) rest
    else if tokenMatch P3 prev (c :: (a ++ rest)) then
      REP ++ combPreGo fuel true (List.drop (P3.length - 1) a) rest
    else
      c :: combPreGo fuel (isWordChar c) a rest

/-- The combined scan's output for the prefix `a` of `a ++ rest`. -/
def combPre (prev : Bool) (a rest : List Char) : List Char :=
  combPreGo a.length prev a rest

/-- Does the (nonempty) list begin with the two characters `lo` — or,
when shorter, is it an initial piece of `lo`?  Every one of the three
patterns starts with `lo`, so this is what the beginning of a list must
look like for a pattern occurrence to start there. -/
def startsLO (ρ : List Char) : Bool :=
  ρ.isPrefixOf ['l', 'o'] || (['l', 'o'] : List Char).isPrefixOf ρ

/-- Does some nonempty suffix of the list look like the start of a
pattern occurrence (`startsLO`)?  For the tails of the three patterns
this is false (checked by `decide`): no whole-token match can begin
strictly inside another pattern's matched text and run past its end. -/
def loClash : List Char → Bool
  | [] => false
  | e :: σ => startsLO (e :: σ) || loClash σ

/-- Identifier character according to the SPEC's glossary (modelled
from the spec's words, for comparison with the code's `\b` semantics):
letters, digits, dots and underscores. -/
def glossaryIdentChar (c : Char) : Bool :=
  isWordChar c || c == '.'

/-- State of a path in the modelled file system: a readable file with
the given content, or an existing but unreadable entry (for example a
directory, or a file without read permission), for which `open` raises
an uncaught `OSError` in the source. -/
inductive FileState where
  | readable (content : List Char)
  | unreadable
deriving DecidableEq

/-- How a run of the program ends. -/
inductive OutKind where
  /-- No path argument: usage message, `sys.exit(1)` (lines 5-7). -/
  | usage
  /-- `os.path.exists` is false: not-found message, `sys.exit(1)`
  (lines 11-13). -/
  | notFound
  /-- The path exists but `open` for reading raises: Python terminates
  with an uncaught exception (traceback on stderr, exit status 1);
  nothing is printed to stdout and nothing is written (lines 15-16). -/
  | readError
  /-- Normal completion: content rewritten, status message, exit 0
  (lines 39-42). -/
  | success
deriving DecidableEq

/-- Observable outcome of one run: how it ended, the process exit
status, the lines printed to stdout, the paths opened for reading, and
the writes performed (path and written content). -/
structure Outcome where
  kind : OutKind
  exitCode : Nat
  stdout : List String
  reads : List String
  writes : List (String × List Char)
deriving DecidableEq

/-- The whole program (`src/migrate_logger.py`) over a modelled file
system `fs` mapping each path to its state (`none` when
`os.path.exists` is false).  `args` models `sys.argv[1:]`, so
`len(sys.argv) < 2` is `args = []`. -/
def runProgram (args : List String) (fs : String → Option FileState) : Outcome :=
  match args with
  | [] =>
    { kind := .usage, exitCode := 1,
      stdout := ["Usage: python3 migrate_logger.py <file_path>"],
      reads := [], writes := [] }
  | path :: _ =>
    match fs path with
    | none =>
      { kind := .notFound, exitCode := 1,
        stdout := ["File " ++ path ++ " not found"],
        reads := [], writes := [] }
    | some FileState.unreadable =>
      { kind := .readError, exitCode := 1, stdout := [],
        reads := [path], writes := [] }
    | some (FileState.readable content) =>
      { kind := .success, exitCode := 0,
        stdout := ["Processed " ++ path],
        reads := [path],
        writes := [(path, migrateContent content)] }

theorem isPrefixOf_self_append (l t : List Char) : l.isPrefixOf (l ++ t) = true := by
  induction l with
  | nil => simp [List.isPrefixOf]
  | cons c cs ih => simp [List.isPrefixOf, ih]

theorem eq_append_of_isPrefixOf :
    ∀ {pat s : List Char}, pat.isPrefixOf s = true → s = pat ++ List.drop pat.length s := by
  intro pat
  induction pat with
  | nil => intro s _; simp
  | cons p ps ih =>
    intro s h
    cases s with
    | nil => simp [List.isPrefixOf] at h
    | cons c cs =>
      simp only [List.isPrefixOf, Bool.and_eq_true, beq_iff_eq] at h
      obtain ⟨h1, h2⟩ := h
      subst h1
      simpa [List.cons_append] using ih h2

theorem beq_false_of_word_mismatch {a e : Char}
    (ha : isWordChar a = true) (he : isWordChar e = false) : (a == e) = false := by
  cases h : (a == e) with
  | false => rfl
  | true =>
    have hae : a = e := eq_of_beq h
    rw [hae, he] at ha
    exact absurd ha (by simp)

theorem reSubGo_fuel (pat rep : List Char) :
    ∀ (f₁ : Nat) (f₂ : Nat) (prev : Bool) (s : List Char),
      s.length ≤ f₁ → s.length ≤ f₂ →
      reSubGo pat rep f₁ prev s = reSubGo pat rep f₂ prev s := by
  intro f₁
  induction f₁ with
  | zero =>
    intro f₂ prev s h1 _
    have hs : s = [] := List.length_eq_zero.mp (Nat.le_zero.mp h1)
    subst hs
    cases f₂ <;> simp [reSubGo]
  | succ f ih =>
    intro f₂ prev s h1 h2
    cases s with
    | nil => cases f₂ <;> simp [reSubGo]
    | cons c cs =>
      cases f₂ with
      | zero => simp at h2
      | succ f₂ =>
        simp only [reSubGo]
        by_cases h : tokenMatch pat prev (c :: cs) = true
        · rw [if_pos h, if_pos h]
          have hd : (List.drop (pat.length - 1) cs).length ≤ f := by
            rw [List.length_drop]
            simp at h1
            omega
          have hd₂ : (List.drop (pat.length - 1) cs).length ≤ f₂ := by
            rw [List.length_drop]
            simp at h2
            omega
          rw [ih f₂ true (List.drop (pat.length - 1) cs) hd hd₂]
        · rw [if_neg h, if_neg h]
          have hc : cs.length ≤ f := by simp at h1; omega
          have hc₂ : cs.length ≤ f₂ := by simp at h2; omega
          rw [ih f₂ (isWordChar c) cs hc hc₂]

theorem reSubFrom_nil (pat rep : List Char) (prev : Bool) :
    reSubFrom pat rep prev [] = [] := rfl

theorem reSubFrom_cons (pat rep : List Char) (prev : Bool) (c : Char) (cs : List Char) :
    reSubFrom pat rep prev (c :: cs) =
      if tokenMatch pat prev (c :: cs) then
        rep ++ reSubFrom pat rep true (List.drop (pat.length - 1) cs)
      else
        c :: reSubFrom pat rep (isWordChar c) cs := by
  show reSubGo pat rep (c :: cs).length prev (c :: cs) = _
  rw [List.length_cons]
  simp only [reSubGo]
  by_cases h : tokenMatch pat prev (c :: cs) = true
  · rw [if_pos h, if_pos h]
    unfold reSubFrom
    rw [reSubGo_fuel pat rep cs.length (List.drop (pat.length - 1) cs).length true
      (List.drop (pat.length - 1) cs) (by rw [List.length_drop]; omega) (Nat.le_refl _)]
  · rw [if_neg h, if_neg h]
    rfl

theorem combGo_fuel :
    ∀ (f₁ : Nat) (f₂ : Nat) (prev : Bool) (s : List Char),
      s.length ≤ f₁ → s.length ≤ f₂ →
      combGo f₁ prev s = combGo f₂ prev s := by
  intro f₁
  induction f₁ with
  | zero =>
    intro f₂ prev s h1 _
    have hs : s = [] := List.length_eq_zero.mp (Nat.le_zero.mp h1)
    subst hs
    cases f₂ <;> simp [combGo]
  | succ f ih =>
    intro f₂ prev s h1 h2
    cases s with
    | nil => cases f₂ <;> simp [combGo]
    | cons c cs =>
      cases f₂ with
      | zero => simp at h2
      | succ f₂ =>
        simp only [combGo]
        have hl1 : cs.length ≤ f := by simp at h1; omega
        have hl2 : cs.length ≤ f₂ := by simp at h2; omega
        by_cases m1 : tokenMatch P1 prev (c :: cs) = true
        · rw [if_pos m1, if_pos m1,
            ih f₂ true (List.drop (P1.length - 1) cs) (by rw [List.length_drop]; omega)
              (by rw [List.length_drop]; omega)]
        · rw [if_neg m1, if_neg m1]
          by_cases m2 : tokenMatch P2 prev (c :: cs) = true
          · rw [if_pos m2, if_pos m2,
              ih f₂ true (List.drop (P2.length - 1) cs) (by rw [List.length_drop]; omega)
                (by rw [List.length_drop]; omega)]
          · rw [if_neg m2, if_neg m2]
            by_cases m3 : tokenMatch P3 prev (c :: cs) = true
            · rw [if_pos m3, if_pos m3,
                ih f₂ true (List.drop (P3.length - 1) cs) (by rw [List.length_drop]; omega)
                  (by rw [List.length_drop]; omega)]
            · rw [if_neg m3, if_neg m3, ih f₂ (isWordChar c) cs hl1 hl2]

theorem combFrom_nil (prev : Bool) : combFrom prev [] = [] := rfl

theorem combFrom_cons (prev : Bool) (c : Char) (cs : List Char) :
    combFrom prev (c :: cs) =
      if tokenMatch P1 prev (c :: cs) then
        REP ++ combFrom true (List.drop (P1.length - 1) cs)
      else if tokenMatch P2 prev (c :: cs) then
        REP ++ combFrom true (List.drop (P2.length - 1) cs)
      else if tokenMatch P3 prev (c :: cs) then
        REP ++ combFrom true (List.drop (P3.length - 1) cs)
      else
        c :: combFrom (isWordChar c) cs := by
  show combGo (c :: cs).length prev (c :: cs) = _
  rw [List.length_cons]
  simp only [combGo]
  unfold combFrom
  by_cases m1 : tokenMatch P1 prev (c :: cs) = true
  · rw [if_pos m1, if_pos m1,
      combGo_fuel cs.length (List.drop (P1.length - 1) cs).length true _
        (by rw [List.length_drop]; omega) (Nat.le_refl _)]
  · rw [if_neg m1, if_neg m1]
    by_cases m2 : tokenMatch P2 prev (c :: cs) = true
    · rw [if_pos m2, if_pos m2,
        combGo_fuel cs.length (List.drop (P2.length - 1) cs).length true _
          (by rw [List.length_drop]; omega) (Nat.le_refl _)]
    · rw [if_neg m2, if_neg m2]
      by_cases m3 : tokenMatch P3 prev (c :: cs) = true
      · rw [if_pos m3, if_pos m3,
          combGo_fuel cs.length (List.drop (P3.length - 1) cs).length true _
            (by rw [List.length_drop]; omega) (Nat.le_refl _)]
      · rw [if_neg m3, if_neg m3]

theorem tokenMatch_elim {pat : List Char} {prev : Bool} {s : List Char}
    (h : tokenMatch pat prev s = true) :
    prev = false ∧ s = pat ++ List.drop pat.length s ∧
      boundaryAfter (List.drop pat.length s) = true := by
  unfold tokenMatch at h
  simp only [Bool.and_eq_true, Bool.not_eq_true'] at h
  obtain ⟨⟨hp, hpre⟩, hb⟩ := h
  exact ⟨hp, eq_append_of_isPrefixOf hpre, hb⟩

theorem tokenMatch_of_parts {pat : List Char} {prev : Bool} {s : List Char}
    (hp : prev = false) (hpre : pat.isPrefixOf s = true)
    (hb : boundaryAfter (List.drop pat.length s) = true) :
    tokenMatch pat prev s = true := by
  unfold tokenMatch
  rw [hp, hpre, hb]
  rfl

theorem tokenMatch_cons (e : Char) (qt : List Char) (prev : Bool) (X : List Char) :
    tokenMatch (e :: qt) prev (e :: X) =
      (!prev && qt.isPrefixOf X && boundaryAfter (List.drop qt.length X)) := by
  simp [tokenMatch, List.isPrefixOf]

theorem tokenMatch_head_ne {q : List Char} (hq : q = P1 ∨ q = P2 ∨ q = P3)
    {c : Char} (hc : ¬c = 'l') (prev : Bool) (X : List Char) :
    tokenMatch q prev (c :: X) = false := by
  have hl : ('l' == c) = false := by
    simp only [beq_eq_false_iff_ne, ne_eq]
    exact fun h => hc h.symm
  rcases hq with rfl | rfl | rfl <;>
    simp [tokenMatch, P1, P2, P3, List.isPrefixOf, hl]

theorem isPrefixOf_of_append {σ l x : List Char}
    (h : σ.isPrefixOf (l ++ x) = true) (hlen : σ.length ≤ l.length) :
    σ.isPrefixOf l = true := by
  induction σ generalizing l with
  | nil => simp [List.isPrefixOf]
  | cons e σ' ih =>
    cases l with
    | nil => simp at hlen
    | cons a l' =>
      simp only [List.cons_append, List.isPrefixOf, Bool.and_eq_true] at h ⊢
      exact ⟨h.1, ih h.2 (by simpa using hlen)⟩

theorem transfer_lemma :
    ∀ (σ u x y p : List Char),
      tailsClash σ = false →
      σ.length ≤ REP.length →
      σ.isPrefixOf (u ++ (REP ++ x)) = true →
      boundaryAfter (List.drop σ.length (u ++ (REP ++ x))) = true →
      σ.isPrefixOf (u ++ (p ++ y)) = true ∧
        boundaryAfter (List.drop σ.length (u ++ (p ++ y))) = true := by
  intro σ
  induction σ with
  | nil =>
    intro u x y p _ _ _ hb
    constructor
    · simp [List.isPrefixOf]
    · cases u with
      | nil =>
        exfalso
        revert hb
        simp [REP, boundaryAfter, isWordChar]
      | cons d u' =>
        simpa [boundaryAfter] using hb
  | cons e σ' ih =>
    intro u x y p hclash hlen hpre hb
    cases u with
    | nil =>
      exfalso
      have hpreREP : (e :: σ').isPrefixOf REP = true :=
        isPrefixOf_of_append (by simpa using hpre) hlen
      simp only [tailsClash, Bool.or_eq_false_iff] at hclash
      rw [hclash.1] at hpreREP
      exact absurd hpreREP (by simp)
    | cons d u' =>
      simp only [List.cons_append, List.isPrefixOf, Bool.and_eq_true] at hpre
      have hclash' : tailsClash σ' = false := by
        simp only [tailsClash, Bool.or_eq_false_iff] at hclash
        exact hclash.2
      have hlen' : σ'.length ≤ REP.length := by
        simp at hlen
        omega
      have hb' : boundaryAfter (List.drop σ'.length (u' ++ (REP ++ x))) = true := by
        simpa [List.cons_append] using hb
      obtain ⟨ih1, ih2⟩ := ih u' x y p hclash' hlen' hpre.2 hb'
      constructor
      · simp only [List.cons_append, List.isPrefixOf, Bool.and_eq_true]
        exact ⟨hpre.1, ih1⟩
      · simpa [List.cons_append] using ih2

theorem reSub_decomp (pat rep : List Char) (hpat : 1 ≤ pat.length) :
    ∀ (n : Nat) (s : List Char) (prev : Bool), s.length ≤ n →
      reSubFrom pat rep prev s = s ∨
      ∃ u v, s = u ++ (pat ++ v) ∧ boundaryAfter v = true ∧
        reSubFrom pat rep prev s = u ++ (rep ++ reSubFrom pat rep true v) := by
  intro n
  induction n with
  | zero =>
    intro s prev h
    left
    have hs : s = [] := List.length_eq_zero.mp (Nat.le_zero.mp h)
    subst hs
    rfl
  | succ n ih =>
    intro s prev h
    cases s with
    | nil => left; rfl
    | cons c cs =>
      by_cases hm : tokenMatch pat prev (c :: cs) = true
      · right
        obtain ⟨_, heq, hb⟩ := tokenMatch_elim hm
        obtain ⟨k, hk⟩ : ∃ k, pat.length = k + 1 := ⟨pat.length - 1, by omega⟩
        refine ⟨[], List.drop pat.length (c :: cs), by simpa using heq, hb, ?_⟩
        rw [reSubFrom_cons, if_pos hm]
        simp only [List.nil_append]
        congr 2
        rw [hk]
        simp [List.drop_succ_cons]
      · rcases ih cs (isWordChar c) (by simp at h; omega) with h1 | ⟨u, v, hsv, hbv, hres⟩
        · left
          rw [reSubFrom_cons, if_neg hm, h1]
        · right
          refine ⟨c :: u, v, by simp [hsv], hbv, ?_⟩
          rw [reSubFrom_cons, if_neg hm, hres]
          simp

theorem no_create {p q : List Char}
    (hp : p = P1 ∨ p = P2 ∨ p = P3) (hq : q = P1 ∨ q = P2 ∨ q = P3)
    (prev : Bool) (cs : List Char)
    (h : tokenMatch q prev ('l' :: reSubFrom p REP true cs) = true) :
    tokenMatch q prev ('l' :: cs) = true := by
  obtain ⟨qt, rfl, hlen, hclash⟩ :
      ∃ qt, q = 'l' :: qt ∧ qt.length ≤ REP.length ∧ tailsClash qt = false := by
    rcases hq with rfl | rfl | rfl
    · exact ⟨_, rfl, by decide, by decide⟩
    · exact ⟨_, rfl, by decide, by decide⟩
    · exact ⟨_, rfl, by decide, by decide⟩
  have hp1 : 1 ≤ p.length := by
    rcases hp with rfl | rfl | rfl <;> decide
  rw [tokenMatch_cons] at h ⊢
  simp only [Bool.and_eq_true] at h
  obtain ⟨⟨hprev, hpre⟩, hb⟩ := h
  rcases reSub_decomp p REP hp1 cs.length cs true (Nat.le_refl _) with
    heq | ⟨u, v, hsv, hbv, hres⟩
  · rw [heq] at hpre hb
    simp only [Bool.and_eq_true]
    exact ⟨⟨hprev, hpre⟩, hb⟩
  · rw [hres] at hpre hb
    obtain ⟨t1, t2⟩ :=
      transfer_lemma qt u (reSubFrom p REP true v) v p hclash hlen hpre hb
    rw [hsv]
    simp only [Bool.and_eq_true]
    exact ⟨⟨hprev, t1⟩, t2⟩

theorem boundary_reSub (pat rep : List Char) {t : List Char}
    (ht : boundaryAfter t = true) :
    boundaryAfter (reSubFrom pat rep true t) = true := by
  cases t with
  | nil => rfl
  | cons e t' =>
    have he : isWordChar e = false := by simpa [boundaryAfter] using ht
    rw [reSubFrom_cons, if_neg (by simp [tokenMatch])]
    simpa [boundaryAfter] using he

theorem reSub_match {m : List Char} (hm : m = P1 ∨ m = P2 ∨ m = P3)
    (t : List Char) (ht : boundaryAfter t = true) :
    reSubFrom m REP false (m ++ t) = REP ++ reSubFrom m REP true t := by
  have gen : ∀ (pat : List Char) (c : Char) (m' : List Char), pat = c :: m' →
      reSubFrom pat REP false (pat ++ t) = REP ++ reSubFrom pat REP true t := by
    intro pat c m' hpat
    have htm : tokenMatch pat false (pat ++ t) = true :=
      tokenMatch_of_parts rfl (isPrefixOf_self_append _ _)
        (by rw [List.drop_left]; exact ht)
    subst hpat
    rw [List.cons_append, reSubFrom_cons, if_pos (by rwa [← List.cons_append])]
    congr 1
    have hlen : (c :: m').length - 1 = m'.length := by simp
    rw [hlen, List.drop_left]
  rcases hm with rfl | rfl | rfl
  · exact gen P1 'l' ['o', 'g', '.', 'P', 'r', 'i', 'n', 't', 'f'] rfl
  · exact gen P2 'l' ['o', 'g', '.', 'P', 'r', 'i', 'n', 't', 'l', 'n'] rfl
  · exact gen P3 'l' ['o', 'g', '.', 'P', 'r', 'i', 'n', 't'] rfl

theorem reSub_skip_pat {q m : List Char}
    (hq : q = P1 ∨ q = P2 ∨ q = P3) (hm : m = P1 ∨ m = P2 ∨ m = P3)
    (hne : ¬q = m) (prev : Bool) (t : List Char) (ht : boundaryAfter t = true) :
    reSubFrom q REP prev (m ++ t) = m ++ reSubFrom q REP true t := by
  rcases hq with rfl | rfl | rfl <;> rcases hm with rfl | rfl | rfl
  · exact absurd rfl hne
  · simp only [P2, List.cons_append, List.nil_append]
    simp [reSubFrom_cons, tokenMatch, List.isPrefixOf, P1, isWordChar, boundaryAfter, P2]
  · cases t with
    | nil => cases prev <;> decide
    | cons e t' =>
      have he : isWordChar e = false := by simpa [boundaryAfter] using ht
      have hf : ('f' == e) = false := beq_false_of_word_mismatch (by decide) he
      simp only [P3, List.cons_append, List.nil_append]
      simp [reSubFrom_cons, tokenMatch, List.isPrefixOf, P1, isWordChar,
        boundaryAfter, hf, he]
  · simp only [P1, List.cons_append, List.nil_append]
    simp [reSubFrom_cons, tokenMatch, List.isPrefixOf, P2, isWordChar, boundaryAfter]
  · exact absurd rfl hne
  · cases t with
    | nil => cases prev <;> decide
    | cons e t' =>
      have he : isWordChar e = false := by simpa [boundaryAfter] using ht
      have hl : ('l' == e) = false := beq_false_of_word_mismatch (by decide) he
      simp only [P3, List.cons_append, List.nil_append]
      simp [reSubFrom_cons, tokenMatch, List.isPrefixOf, P2, isWordChar,
        boundaryAfter, hl, he]
  · simp only [P1, List.cons_append, List.nil_append]
    simp [reSubFrom_cons, tokenMatch, List.isPrefixOf, P3, isWordChar, boundaryAfter]
  · simp only [P2, List.cons_append, List.nil_append]
    simp [reSubFrom_cons, tokenMatch, List.isPrefixOf, P3, isWordChar, boundaryAfter]
  · exact absurd rfl hne

theorem reSub_skip_rep {q : List Char} (hq : q = P1 ∨ q = P2 ∨ q = P3)
    (prev : Bool) (t : List Char) :
    reSubFrom q REP prev (REP ++ t) = REP ++ reSubFrom q REP true t := by
  rcases hq with rfl | rfl | rfl <;>
    · simp only [REP, List.cons_append, List.nil_append]
      simp [reSubFrom_cons, tokenMatch, List.isPrefixOf, P1, P2, P3,
        isWordChar, boundaryAfter]

theorem chainA {m o1 o2 : List Char}
    (hm : m = P1 ∨ m = P2 ∨ m = P3)
    (h1 : o1 = P1 ∨ o1 = P2 ∨ o1 = P3) (h2 : o2 = P1 ∨ o2 = P2 ∨ o2 = P3)
    (t : List Char) (ht : boundaryAfter t = true) :
    reSubFrom o2 REP false (reSubFrom o1 REP false (reSubFrom m REP false (m ++ t))) =
      REP ++ reSubFrom o2 REP true (reSubFrom o1 REP true (reSubFrom m REP true t)) := by
  rw [reSub_match hm t ht, reSub_skip_rep h1, reSub_skip_rep h2]

theorem chainB {m o1 o2 : List Char}
    (hm : m = P1 ∨ m = P2 ∨ m = P3)
    (h1 : o1 = P1 ∨ o1 = P2 ∨ o1 = P3) (h2 : o2 = P1 ∨ o2 = P2 ∨ o2 = P3)
    (hne1 : ¬o1 = m) (t : List Char) (ht : boundaryAfter t = true) :
    reSubFrom o2 REP false (reSubFrom m REP false (reSubFrom o1 REP false (m ++ t))) =
      REP ++ reSubFrom o2 REP true (reSubFrom m REP true (reSubFrom o1 REP true t)) := by
  rw [reSub_skip_pat h1 hm hne1 false t ht,
    reSub_match hm _ (boundary_reSub o1 REP ht), reSub_skip_rep h2]

theorem chainC {m o1 o2 : List Char}
    (hm : m = P1 ∨ m = P2 ∨ m = P3)
    (h1 : o1 = P1 ∨ o1 = P2 ∨ o1 = P3) (h2 : o2 = P1 ∨ o2 = P2 ∨ o2 = P3)
    (hne1 : ¬o1 = m) (hne2 : ¬o2 = m) (t : List Char) (ht : boundaryAfter t = true) :
    reSubFrom m REP false (reSubFrom o2 REP false (reSubFrom o1 REP false (m ++ t))) =
      REP ++ reSubFrom m REP true (reSubFrom o2 REP true (reSubFrom o1 REP true t)) := by
  rw [reSub_skip_pat h1 hm hne1 false t ht,
    reSub_skip_pat h2 hm hne2 false _ (boundary_reSub o1 REP ht),
    reSub_match hm _ (boundary_reSub o2 REP (boundary_reSub o1 REP ht))]

theorem boundaryAfter_nil : boundaryAfter [] = true := rfl

theorem boundaryAfter_cons (c : Char) (l : List Char) :
    boundaryAfter (c :: l) = !isWordChar c := rfl

theorem comb_match {m : List Char} (hm : m = P1 ∨ m = P2 ∨ m = P3)
    (t : List Char) (ht : boundaryAfter t = true) :
    combFrom false (m ++ t) = REP ++ combFrom true t := by
  rcases hm with rfl | rfl | rfl
  · simp only [P1, List.cons_append, List.nil_append]
    simp [combFrom_cons, tokenMatch, List.isPrefixOf, P1, P2, P3, ht]
  · simp only [P2, List.cons_append, List.nil_append]
    simp [combFrom_cons, tokenMatch, List.isPrefixOf, P1, P2, P3, ht]
  · cases t with
    | nil => decide
    | cons e t' =>
      have he : isWordChar e = false := by simpa [boundaryAfter] using ht
      have hf : ('f' == e) = false := beq_false_of_word_mismatch (by decide) he
      have hl : ('l' == e) = false := beq_false_of_word_mismatch (by decide) he
      simp only [P3, List.cons_append, List.nil_append]
      simp [combFrom_cons, tokenMatch, List.isPrefixOf, P1, P2, P3,
        boundaryAfter_cons, he, hf, hl]

theorem perm_mem {p q r : List Char}
    (hperm : (p = P1 ∧ q = P2 ∧ r = P3) ∨ (p = P1 ∧ q = P3 ∧ r = P2) ∨
      (p = P2 ∧ q = P1 ∧ r = P3) ∨ (p = P2 ∧ q = P3 ∧ r = P1) ∨
      (p = P3 ∧ q = P1 ∧ r = P2) ∨ (p = P3 ∧ q = P2 ∧ r = P1)) :
    (p = P1 ∨ p = P2 ∨ p = P3) ∧ (q = P1 ∨ q = P2 ∨ q = P3) ∧
      (r = P1 ∨ r = P2 ∨ r = P3) := by
  rcases hperm with h | h | h | h | h | h <;>
    obtain ⟨rfl, rfl, rfl⟩ := h <;> decide

theorem perm_split {p q r m : List Char}
    (hperm : (p = P1 ∧ q = P2 ∧ r = P3) ∨ (p = P1 ∧ q = P3 ∧ r = P2) ∨
      (p = P2 ∧ q = P1 ∧ r = P3) ∨ (p = P2 ∧ q = P3 ∧ r = P1) ∨
      (p = P3 ∧ q = P1 ∧ r = P2) ∨ (p = P3 ∧ q = P2 ∧ r = P1))
    (hm : m = P1 ∨ m = P2 ∨ m = P3) :
    (p = m ∧ (q = P1 ∨ q = P2 ∨ q = P3) ∧ (r = P1 ∨ r = P2 ∨ r = P3) ∧
       ¬q = m ∧ ¬r = m) ∨
    (q = m ∧ (p = P1 ∨ p = P2 ∨ p = P3) ∧ (r = P1 ∨ r = P2 ∨ r = P3) ∧
       ¬p = m ∧ ¬r = m) ∨
    (r = m ∧ (p = P1 ∨ p = P2 ∨ p = P3) ∧ (q = P1 ∨ q = P2 ∨ q = P3) ∧
       ¬p = m ∧ ¬q = m) := by
  rcases hperm with h | h | h | h | h | h <;> obtain ⟨rfl, rfl, rfl⟩ := h <;>
    rcases hm with rfl | rfl | rfl <;> decide

theorem passes_eq_comb {p q r : List Char}
    (hperm : (p = P1 ∧ q = P2 ∧ r = P3) ∨ (p = P1 ∧ q = P3 ∧ r = P2) ∨
      (p = P2 ∧ q = P1 ∧ r = P3) ∨ (p = P2 ∧ q = P3 ∧ r = P1) ∨
      (p = P3 ∧ q = P1 ∧ r = P2) ∨ (p = P3 ∧ q = P2 ∧ r = P1)) :
    ∀ (n : Nat) (s : List Char) (prev : Bool), s.length ≤ n →
      reSubFrom r REP prev (reSubFrom q REP prev (reSubFrom p REP prev s)) =
        combFrom prev s := by
  obtain ⟨hp, hq, hr⟩ := perm_mem hperm
  intro n
  induction n with
  | zero =>
    intro s prev h
    have hs : s = [] := List.length_eq_zero.mp (Nat.le_zero.mp h)
    subst hs
    rfl
  | succ n ih =>
    intro s prev hlen
    cases s with
    | nil => rfl
    | cons c cs =>
      have hmatch : ∀ m : List Char, (m = P1 ∨ m = P2 ∨ m = P3) →
          tokenMatch m prev (c :: cs) = true →
          reSubFrom r REP prev (reSubFrom q REP prev (reSubFrom p REP prev (c :: cs))) =
            combFrom prev (c :: cs) := by
        intro m hm hmt
        obtain ⟨hprev, heq, hb⟩ := tokenMatch_elim hmt
        subst hprev
        obtain ⟨t, heqt, hbt, hlt⟩ :
            ∃ t, c :: cs = m ++ t ∧ boundaryAfter t = true ∧ t.length ≤ n := by
          refine ⟨List.drop m.length (c :: cs), heq, hb, ?_⟩
          have hm1 : 1 ≤ m.length := by rcases hm with rfl | rfl | rfl <;> decide
          rw [List.length_drop]
          simp at hlen ⊢
          omega
        rw [heqt, comb_match hm t hbt]
        rcases perm_split hperm hm with
          ⟨rfl, hq2, hr2, _, _⟩ | ⟨rfl, hp2, hr2, hnp, _⟩ | ⟨rfl, hp2, hq2, hnp, hnq⟩
        · rw [chainA hm hq2 hr2 t hbt]
          rw [ih t true hlt]
        · rw [chainB hm hp2 hr2 hnp t hbt]
          rw [ih t true hlt]
        · rw [chainC hm hp2 hq2 hnp hnq t hbt]
          rw [ih t true hlt]
      by_cases m1 : tokenMatch P1 prev (c :: cs) = true
      · exact hmatch P1 (Or.inl rfl) m1
      · by_cases m2 : tokenMatch P2 prev (c :: cs) = true
        · exact hmatch P2 (Or.inr (Or.inl rfl)) m2
        · by_cases m3 : tokenMatch P3 prev (c :: cs) = true
          · exact hmatch P3 (Or.inr (Or.inr rfl)) m3
          · have noM : ∀ m : List Char, (m = P1 ∨ m = P2 ∨ m = P3) →
                tokenMatch m prev (c :: cs) = false := by
              intro m hm
              rcases hm with rfl | rfl | rfl
              · exact Bool.not_eq_true _ |>.mp m1
              · exact Bool.not_eq_true _ |>.mp m2
              · exact Bool.not_eq_true _ |>.mp m3
            have e1 : reSubFrom p REP prev (c :: cs) =
                c :: reSubFrom p REP (isWordChar c) cs := by
              rw [reSubFrom_cons, if_neg (by simp [noM p hp])]
            have hX1 : tokenMatch q prev
                (c :: reSubFrom p REP (isWordChar c) cs) = false := by
              by_cases hc : c = 'l'
              · subst hc
                rw [show isWordChar 'l' = true from by decide]
                cases hmq : tokenMatch q prev ('l' :: reSubFrom p REP true cs) with
                | false => rfl
                | true =>
                  have := no_create hp hq prev cs hmq
                  rw [noM q hq] at this
                  exact absurd this (by simp)
              · exact tokenMatch_head_ne hq hc prev _
            have e2 : reSubFrom q REP prev (c :: reSubFrom p REP (isWordChar c) cs) =
                c :: reSubFrom q REP (isWordChar c) (reSubFrom p REP (isWordChar c) cs) := by
              rw [reSubFrom_cons, if_neg (by simp [hX1])]
            have hX2 : tokenMatch r prev
                (c :: reSubFrom q REP (isWordChar c) (reSubFrom p REP (isWordChar c) cs)) =
                false := by
              by_cases hc : c = 'l'
              · subst hc
                rw [show isWordChar 'l' = true from by decide]
                cases hmr : tokenMatch r prev
                    ('l' :: reSubFrom q REP true (reSubFrom p REP true cs)) with
                | false => rfl
                | true =>
                  have step1 := no_create hq hr prev (reSubFrom p REP true cs) hmr
                  have step2 := no_create hp hr prev cs step1
                  rw [noM r hr] at step2
                  exact absurd step2 (by simp)
              · exact tokenMatch_head_ne hr hc prev _
            have e3 : reSubFrom r REP prev
                (c :: reSubFrom q REP (isWordChar c) (reSubFrom p REP (isWordChar c) cs)) =
                c :: reSubFrom r REP (isWordChar c)
                  (reSubFrom q REP (isWordChar c) (reSubFrom p REP (isWordChar c) cs)) := by
              rw [reSubFrom_cons, if_neg (by simp [hX2])]
            rw [e1, e2, e3, combFrom_cons, if_neg m1, if_neg m2, if_neg m3]
            rw [ih cs (isWordChar c) (by simp at hlen; omega)]

theorem migrate_eq_comb (s : List Char) : migrateContent s = comb s := by
  show reSubFrom P3 REP false (reSubFrom P2 REP false (reSubFrom P1 REP false s)) =
    combFrom false s
  exact passes_eq_comb (Or.inl ⟨rfl, rfl, rfl⟩) s.length s false (Nat.le_refl _)

theorem comb_no_occ : ∀ (s : List Char) (prev : Bool),
    hasAny prev s = false → combFrom prev s = s := by
  intro s
  induction s with
  | nil => intro prev _; rfl
  | cons c cs ih =>
    intro prev h
    simp only [hasAny, Bool.or_eq_false_iff] at h
    obtain ⟨hm, hrest⟩ := h
    simp only [anyMatch, Bool.or_eq_false_iff] at hm
    obtain ⟨⟨h1, h2⟩, h3⟩ := hm
    rw [combFrom_cons, if_neg (by simp [h1]), if_neg (by simp [h2]),
      if_neg (by simp [h3]), ih (isWordChar c) hrest]

theorem hasAny_rep (prev : Bool) (X : List Char) :
    hasAny prev (REP ++ X) = hasAny true X := by
  simp only [REP, List.cons_append, List.nil_append]
  simp [hasAny, anyMatch, tokenMatch, List.isPrefixOf, P1, P2, P3, isWordChar]

theorem comb_decomp :
    ∀ (n : Nat) (s : List Char) (prev : Bool), s.length ≤ n →
      combFrom prev s = s ∨
      ∃ u m v, (m = P1 ∨ m = P2 ∨ m = P3) ∧ s = u ++ (m ++ v) ∧
        boundaryAfter v = true ∧
        combFrom prev s = u ++ (REP ++ combFrom true v) := by
  intro n
  induction n with
  | zero =>
    intro s prev h
    left
    have hs : s = [] := List.length_eq_zero.mp (Nat.le_zero.mp h)
    subst hs
    rfl
  | succ n ih =>
    intro s prev h
    cases s with
    | nil => left; rfl
    | cons c cs =>
      have hcase : ∀ m : List Char, (m = P1 ∨ m = P2 ∨ m = P3) →
          tokenMatch m prev (c :: cs) = true →
          combFrom prev (c :: cs) = REP ++ combFrom true (List.drop m.length (c :: cs)) →
          combFrom prev (c :: cs) = c :: cs ∨
          ∃ u m' v, (m' = P1 ∨ m' = P2 ∨ m' = P3) ∧ c :: cs = u ++ (m' ++ v) ∧
            boundaryAfter v = true ∧
            combFrom prev (c :: cs) = u ++ (REP ++ combFrom true v) := by
        intro m hm hmt hcf
        right
        obtain ⟨_, heq, hb⟩ := tokenMatch_elim hmt
        exact ⟨[], m, List.drop m.length (c :: cs), hm, by simpa using heq, hb,
          by simpa using hcf⟩
      by_cases m1 : tokenMatch P1 prev (c :: cs) = true
      · refine hcase P1 (Or.inl rfl) m1 ?_
        rw [combFrom_cons, if_pos m1]
        congr 2
      · by_cases m2 : tokenMatch P2 prev (c :: cs) = true
        · refine hcase P2 (Or.inr (Or.inl rfl)) m2 ?_
          rw [combFrom_cons, if_neg m1, if_pos m2]
          congr 2
        · by_cases m3 : tokenMatch P3 prev (c :: cs) = true
          · refine hcase P3 (Or.inr (Or.inr rfl)) m3 ?_
            rw [combFrom_cons, if_neg m1, if_neg m2, if_pos m3]
            congr 2
          · rcases ih cs (isWordChar c) (by simp at h; omega) with
              h1 | ⟨u, m', v, hm', hsv, hbv, hres⟩
            · left
              rw [combFrom_cons, if_neg m1, if_neg m2, if_neg m3, h1]
            · right
              refine ⟨c :: u, m', v, hm', by simp [hsv], hbv, ?_⟩
              rw [combFrom_cons, if_neg m1, if_neg m2, if_neg m3, hres]
              simp

theorem no_create_comb {q : List Char}
    (hq : q = P1 ∨ q = P2 ∨ q = P3) (prev : Bool) (cs : List Char)
    (h : tokenMatch q prev ('l' :: combFrom true cs) = true) :
    tokenMatch q prev ('l' :: cs) = true := by
  obtain ⟨qt, rfl, hlen, hclash⟩ :
      ∃ qt, q = 'l' :: qt ∧ qt.length ≤ REP.length ∧ tailsClash qt = false := by
    rcases hq with rfl | rfl | rfl
    · exact ⟨_, rfl, by decide, by decide⟩
    · exact ⟨_, rfl, by decide, by decide⟩
    · exact ⟨_, rfl, by decide, by decide⟩
  rw [tokenMatch_cons] at h ⊢
  simp only [Bool.and_eq_true] at h
  obtain ⟨⟨hprev, hpre⟩, hb⟩ := h
  rcases comb_decomp cs.length cs true (Nat.le_refl _) with
    heq | ⟨u, m, v, hm, hsv, hbv, hres⟩
  · rw [heq] at hpre hb
    simp only [Bool.and_eq_true]
    exact ⟨⟨hprev, hpre⟩, hb⟩
  · rw [hres] at hpre hb
    obtain ⟨t1, t2⟩ :=
      transfer_lemma qt u (combFrom true v) v m hclash hlen hpre hb
    rw [hsv]
    simp only [Bool.and_eq_true]
    exact ⟨⟨hprev, t1⟩, t2⟩

theorem comb_output_clean :
    ∀ (n : Nat) (s : List Char) (prev : Bool), s.length ≤ n →
      hasAny prev (combFrom prev s) = false := by
  intro n
  induction n with
  | zero =>
    intro s prev h
    have hs : s = [] := List.length_eq_zero.mp (Nat.le_zero.mp h)
    subst hs
    rfl
  | succ n ih =>
    intro s prev hlen
    cases s with
    | nil => rfl
    | cons c cs =>
      have hmatch : ∀ m : List Char, (m = P1 ∨ m = P2 ∨ m = P3) →
          tokenMatch m prev (c :: cs) = true →
          hasAny prev (combFrom prev (c :: cs)) = false := by
        intro m hm hmt
        obtain ⟨hprev, heq, hb⟩ := tokenMatch_elim hmt
        subst hprev
        obtain ⟨t, heqt, hbt, hlt⟩ :
            ∃ t, c :: cs = m ++ t ∧ boundaryAfter t = true ∧ t.length ≤ n := by
          refine ⟨List.drop m.length (c :: cs), heq, hb, ?_⟩
          have hm1 : 1 ≤ m.length := by rcases hm with rfl | rfl | rfl <;> decide
          rw [List.length_drop]
          simp at hlen ⊢
          omega
        rw [heqt, comb_match hm t hbt, hasAny_rep, ih t true hlt]
      by_cases m1 : tokenMatch P1 prev (c :: cs) = true
      · exact hmatch P1 (Or.inl rfl) m1
      · by_cases m2 : tokenMatch P2 prev (c :: cs) = true
        · exact hmatch P2 (Or.inr (Or.inl rfl)) m2
        · by_cases m3 : tokenMatch P3 prev (c :: cs) = true
          · exact hmatch P3 (Or.inr (Or.inr rfl)) m3
          · rw [combFrom_cons, if_neg m1, if_neg m2, if_neg m3]
            simp only [hasAny, Bool.or_eq_false_iff]
            constructor
            · have hnc : ∀ q : List Char, (q = P1 ∨ q = P2 ∨ q = P3) →
                  tokenMatch q prev (c :: combFrom (isWordChar c) cs) = false := by
                intro q hqq
                by_cases hc : c = 'l'
                · subst hc
                  rw [show isWordChar 'l' = true from by decide]
                  cases hmq : tokenMatch q prev ('l' :: combFrom true cs) with
                  | false => rfl
                  | true =>
                    have hback := no_create_comb hqq prev cs hmq
                    rcases hqq with rfl | rfl | rfl
                    · exact absurd hback m1
                    · exact absurd hback m2
                    · exact absurd hback m3
                · exact tokenMatch_head_ne hqq hc prev _
              simp only [anyMatch, Bool.or_eq_false_iff]
              exact ⟨⟨hnc P1 (Or.inl rfl), hnc P2 (Or.inr (Or.inl rfl))⟩,
                hnc P3 (Or.inr (Or.inr rfl))⟩
            · exact ih cs (isWordChar c) (by simp at hlen; omega)

theorem comb_idem (s : List Char) : comb (comb s) = comb s :=
  comb_no_occ (comb s) false (comb_output_clean s.length s false (Nat.le_refl _))

theorem comb_single (pat b : List Char) (hpat : pat = P1 ∨ pat = P2 ∨ pat = P3)
    (hbb : boundaryAfter b = true) (hb : hasAny true b = false) :
    ∀ (a : List Char) (prev : Bool), prevA prev a = false →
      cleanPre prev a (pat ++ b) = true →
      combFrom prev (a ++ (pat ++ b)) = a ++ (REP ++ b) := by
  intro a
  induction a with
  | nil =>
    intro prev hprev _
    have hp : prev = false := by simpa [prevA] using hprev
    subst hp
    simp only [List.nil_append]
    rw [comb_match hpat b hbb, comb_no_occ b true hb]
  | cons d a' ih =>
    intro prev hprev hclean
    simp only [cleanPre, Bool.and_eq_true] at hclean
    obtain ⟨hnm, hclean'⟩ := hclean
    have hnm' : anyMatch prev (d :: (a' ++ (pat ++ b))) = false := by
      simpa using hnm
    simp only [anyMatch, Bool.or_eq_false_iff] at hnm'
    obtain ⟨⟨h1, h2⟩, h3⟩ := hnm'
    simp only [List.cons_append]
    rw [combFrom_cons, if_neg (by simp [h1]), if_neg (by simp [h2]),
      if_neg (by simp [h3]), ih (isWordChar d) (by simpa [prevA] using hprev) hclean']

/-- Claim C1: for every input string containing exactly one whole-token
occurrence of `log.Printf`, `log.Println`, or `log.Print` — written as
`a ++ pat ++ b` where the occurrence has a word boundary on each side,
no whole-token match of any rule occurs at any position inside `a`
(matches may peek past `a`), and `b` contains no whole-token occurrence
— the migration produces the same string with `logger.Info` substituted
at that position and every other character unchanged. -/
theorem migrate_single_occurrence (pat a b : List Char)
    (hpat : pat = P1 ∨ pat = P2 ∨ pat = P3)
    (hpre : prevA false a = false)
    (hclean : cleanPre false a (pat ++ b) = true)
    (hafter : boundaryAfter b = true)
    (hb : hasAny true b = false) :
    migrateContent (a ++ (pat ++ b)) = a ++ (REP ++ b) := by
  rw [migrate_eq_comb]
  exact comb_single pat b hpat hafter hb a false hpre hclean

/-- Witness for C1: `x = log.Printf(v)` becomes `x = logger.Info(v)`. -/
theorem migrate_single_occurrence_witness :
    migrateContent (("x = ".toList) ++ (P1 ++ "(v)".toList)) =
      ("x = ".toList) ++ (REP ++ "(v)".toList) :=
  migrate_single_occurrence P1 ("x = ".toList) ("(v)".toList)
    (Or.inl rfl) (by decide) (by decide) (by decide) (by decide)

/-- Claim C4: applying the three whole-token substitutions in any of
the six possible orders yields the identical final string — each of the
six compositions equals the transformation the program performs. -/
theorem migrate_order_independent (s : List Char) :
    reSub P3 REP (reSub P2 REP (reSub P1 REP s)) = migrateContent s ∧
    reSub P2 REP (reSub P3 REP (reSub P1 REP s)) = migrateContent s ∧
    reSub P3 REP (reSub P1 REP (reSub P2 REP s)) = migrateContent s ∧
    reSub P1 REP (reSub P3 REP (reSub P2 REP s)) = migrateContent s ∧
    reSub P2 REP (reSub P1 REP (reSub P3 REP s)) = migrateContent s ∧
    reSub P1 REP (reSub P2 REP (reSub P3 REP s)) = migrateContent s := by
  rw [migrate_eq_comb]
  refine ⟨?_, ?_, ?_, ?_, ?_, ?_⟩
  · exact passes_eq_comb (Or.inl ⟨rfl, rfl, rfl⟩) s.length s false (Nat.le_refl _)
  · exact passes_eq_comb (Or.inr (Or.inl ⟨rfl, rfl, rfl⟩)) s.length s false
      (Nat.le_refl _)
  · exact passes_eq_comb (Or.inr (Or.inr (Or.inl ⟨rfl, rfl, rfl⟩))) s.length s false
      (Nat.le_refl _)
  · exact passes_eq_comb (Or.inr (Or.inr (Or.inr (Or.inl ⟨rfl, rfl, rfl⟩)))) s.length
      s false (Nat.le_refl _)
  · exact passes_eq_comb (Or.inr (Or.inr (Or.inr (Or.inr (Or.inl ⟨rfl, rfl, rfl⟩)))))
      s.length s false (Nat.le_refl _)
  · exact passes_eq_comb (Or.inr (Or.inr (Or.inr (Or.inr (Or.inr ⟨rfl, rfl, rfl⟩)))))
      s.length s false (Nat.le_refl _)

/-- Claim C5: the content transformation is idempotent — applying the
migration to its own output yields the same string as applying it
once. -/
theorem migrate_idempotent (s : List Char) :
    migrateContent (migrateContent s) = migrateContent s := by
  rw [migrate_eq_comb s, migrate_eq_comb (comb s), comb_idem]

/-- Claim C6: an input string with zero whole-token occurrences of the
three target tokens is left unchanged by the migration. -/
theorem migrate_no_occurrence (s : List Char) (h : hasAny false s = false) :
    migrateContent s = s := by
  rw [migrate_eq_comb]
  exact comb_no_occ s false h

/-- Witness for C6: a string with no whole-token occurrence is left
exactly as it is. -/
theorem migrate_no_occurrence_witness :
    migrateContent ("fmt.Printf(\"%d\", x); mylog.Printf(y)".toList) =
      "fmt.Printf(\"%d\", x); mylog.Printf(y)".toList :=
  migrate_no_occurrence _ (by decide)

/-- Claim C7: for every path argument that does not refer to an
existing file, the program exits with a non-zero status, prints a
"not found" message naming the offending path, and writes nothing. -/
theorem run_missing_file (path : String) (rest : List String)
    (fs : String → Option FileState) (h : fs path = none) :
    (runProgram (path :: rest) fs).exitCode ≠ 0 ∧
    (runProgram (path :: rest) fs).stdout = ["File " ++ path ++ " not found"] ∧
    (runProgram (path :: rest) fs).writes = [] := by
  simp [runProgram, h]

/-- Witness for C7 at the spec's own example path. -/
theorem run_missing_file_witness :
    (runProgram ["/no/such/file.go"] (fun _ => none)).exitCode ≠ 0 ∧
    (runProgram ["/no/such/file.go"] (fun _ => none)).stdout =
      ["File " ++ "/no/such/file.go" ++ " not found"] ∧
    (runProgram ["/no/such/file.go"] (fun _ => none)).writes = [] :=
  run_missing_file "/no/such/file.go" [] (fun _ => none) rfl

/-- Claim C8: invoked with no path argument, the program exits
non-zero, prints the usage message, and neither reads nor writes any
file. -/
theorem run_no_argument (fs : String → Option FileState) :
    (runProgram [] fs).exitCode ≠ 0 ∧
    (runProgram [] fs).stdout = ["Usage: python3 migrate_logger.py <file_path>"] ∧
    (runProgram [] fs).reads = [] ∧
    (runProgram [] fs).writes = [] := by
  simp [runProgram]

/-- Counterexample to C9: a path that exists but is not readable as a
file passes the `os.path.exists` check, so the program does NOT fail
with the not-found error; instead `open` raises and the run ends as an
uncaught read error with no "not found" message, after the read was
attempted. -/
theorem unreadable_not_notfound_counterexample :
    (runProgram ["/tmp/blocked"]
      (fun p => if p = "/tmp/blocked" then some FileState.unreadable else none)).kind ≠
        OutKind.notFound ∧
    (runProgram ["/tmp/blocked"]
      (fun p => if p = "/tmp/blocked" then some FileState.unreadable else none)).stdout =
        [] ∧
    (runProgram ["/tmp/blocked"]
      (fun p => if p = "/tmp/blocked" then some FileState.unreadable else none)).reads =
        ["/tmp/blocked"] := by
  refine ⟨by decide, by decide, by decide⟩

/-- Claim C9 (amended): the not-found failure — message naming the
missing file, non-zero exit, nothing read or written — occurs exactly
when the path does not exist.  A path that exists but is not readable
as a file instead ends in an uncaught read error: still a non-zero
exit with nothing printed to stdout and nothing written, but only
after a read was attempted. -/
theorem notfound_amended (path : String) (rest : List String)
    (fs : String → Option FileState) :
    (fs path = none →
      (runProgram (path :: rest) fs).kind = OutKind.notFound ∧
      (runProgram (path :: rest) fs).exitCode ≠ 0 ∧
      (runProgram (path :: rest) fs).stdout = ["File " ++ path ++ " not found"] ∧
      (runProgram (path :: rest) fs).reads = [] ∧
      (runProgram (path :: rest) fs).writes = []) ∧
    (fs path = some FileState.unreadable →
      (runProgram (path :: rest) fs).kind = OutKind.readError ∧
      (runProgram (path :: rest) fs).exitCode ≠ 0 ∧
      (runProgram (path :: rest) fs).stdout = [] ∧
      (runProgram (path :: rest) fs).reads = [path] ∧
      (runProgram (path :: rest) fs).writes = []) := by
  constructor <;> intro h <;> simp [runProgram, h]

/-- Witness for the amended C9: a missing path gives the not-found
outcome and an existing-but-unreadable path gives the read-error
outcome. -/
theorem notfound_amended_witness :
    (runProgram ["/gone.go"]
      (fun p => if p = "/adir" then some FileState.unreadable else none)).kind =
        OutKind.notFound ∧
    (runProgram ["/adir"]
      (fun p => if p = "/adir" then some FileState.unreadable else none)).kind =
        OutKind.readError := by
  constructor
  · exact (notfound_amended "/gone.go" []
      (fun p => if p = "/adir" then some FileState.unreadable else none)).1
        (by decide) |>.1
  · exact (notfound_amended "/adir" []
      (fun p => if p = "/adir" then some FileState.unreadable else none)).2
        (by decide) |>.1

/-- Claim C10: on every successful run — the path refers to a readable
file — the program writes the transformed content back to that path,
even when the transformation changed nothing; the file is always
rewritten on the success path. -/
theorem run_always_writes (path : String) (rest : List String)
    (fs : String → Option FileState) (content : List Char)
    (h : fs path = some (FileState.readable content)) :
    (runProgram (path :: rest) fs).kind = OutKind.success ∧
    (runProgram (path :: rest) fs).exitCode = 0 ∧
    (runProgram (path :: rest) fs).writes = [(path, migrateContent content)] := by
  simp [runProgram, h]

/-- Witness for C10: a file whose content contains no target token is
still rewritten (with identical content). -/
theorem run_always_writes_witness :
    (runProgram ["/src/a.go"]
      (fun _ => some (FileState.readable ("fmt.Println(x)".toList)))).writes =
      [("/src/a.go", "fmt.Println(x)".toList)] ∧
    migrateContent ("fmt.Println(x)".toList) = "fmt.Println(x)".toList := by
  constructor
  · exact (run_always_writes "/src/a.go" []
      (fun _ => some (FileState.readable ("fmt.Println(x)".toList)))
      ("fmt.Println(x)".toList) rfl).2.2.trans (by decide)
  · decide

theorem combPreGo_fuel :
    ∀ (f₁ f₂ : Nat) (prev : Bool) (a rest : List Char),
      a.length ≤ f₁ → a.length ≤ f₂ →
      combPreGo f₁ prev a rest = combPreGo f₂ prev a rest := by
  intro f₁
  induction f₁ with
  | zero =>
    intro f₂ prev a rest h1 _
    have ha : a = [] := List.length_eq_zero.mp (Nat.le_zero.mp h1)
    subst ha
    cases f₂ <;> simp [combPreGo]
  | succ f ih =>
    intro f₂ prev a rest h1 h2
    cases a with
    | nil => cases f₂ <;> simp [combPreGo]
    | cons c a' =>
      cases f₂ with
      | zero => simp at h2
      | succ f₂ =>
        simp only [combPreGo]
        have hl1 : a'.length ≤ f := by simp at h1; omega
        have hl2 : a'.length ≤ f₂ := by simp at h2; omega
        by_cases m1 : tokenMatch P1 prev (c :: (a' ++ rest)) = true
        · rw [if_pos m1, if_pos m1,
            ih f₂ true (List.drop (P1.length - 1) a') rest
              (by rw [List.length_drop]; omega) (by rw [List.length_drop]; omega)]
        · rw [if_neg m1, if_neg m1]
          by_cases m2 : tokenMatch P2 prev (c :: (a' ++ rest)) = true
          · rw [if_pos m2, if_pos m2,
              ih f₂ true (List.drop (P2.length - 1) a') rest
                (by rw [List.length_drop]; omega) (by rw [List.length_drop]; omega)]
          · rw [if_neg m2, if_neg m2]
            by_cases m3 : tokenMatch P3 prev (c :: (a' ++ rest)) = true
            · rw [if_pos m3, if_pos m3,
                ih f₂ true (List.drop (P3.length - 1) a') rest
                  (by rw [List.length_drop]; omega) (by rw [List.length_drop]; omega)]
            · rw [if_neg m3, if_neg m3, ih f₂ (isWordChar c) a' rest hl1 hl2]

theorem combPre_nil (prev : Bool) (rest : List Char) : combPre prev [] rest = [] := rfl

theorem combPre_cons (prev : Bool) (c : Char) (a rest : List Char) :
    combPre prev (c :: a) rest =
      if tokenMatch P1 prev (c :: (a ++ rest)) then
        REP ++ combPre true (List.drop (P1.length - 1) a) rest
      else if tokenMatch P2 prev (c :: (a ++ rest)) then
        REP ++ combPre true (List.drop (P2.length - 1) a) rest
      else if tokenMatch P3 prev (c :: (a ++ rest)) then
        REP ++ combPre true (List.drop (P3.length - 1) a) rest
      else
        c :: combPre (isWordChar c) a rest := by
  show combPreGo (c :: a).length prev (c :: a) rest = _
  rw [List.length_cons]
  simp only [combPreGo]
  unfold combPre
  by_cases m1 : tokenMatch P1 prev (c :: (a ++ rest)) = true
  · rw [if_pos m1, if_pos m1,
      combPreGo_fuel a.length (List.drop (P1.length - 1) a).length true _ rest
        (by rw [List.length_drop]; omega) (Nat.le_refl _)]
  · rw [if_neg m1, if_neg m1]
    by_cases m2 : tokenMatch P2 prev (c :: (a ++ rest)) = true
    · rw [if_pos m2, if_pos m2,
        combPreGo_fuel a.length (List.drop (P2.length - 1) a).length true _ rest
          (by rw [List.length_drop]; omega) (Nat.le_refl _)]
    · rw [if_neg m2, if_neg m2]
      by_cases m3 : tokenMatch P3 prev (c :: (a ++ rest)) = true
      · rw [if_pos m3, if_pos m3,
          combPreGo_fuel a.length (List.drop (P3.length - 1) a).length true _ rest
            (by rw [List.length_drop]; omega) (Nat.le_refl _)]
      · rw [if_neg m3, if_neg m3]

theorem prevA_of_ne_nil (p1 p2 : Bool) (w : List Char) (h : w ≠ []) :
    prevA p1 w = prevA p2 w := by
  cases w with
  | nil => exact absurd rfl h
  | cons c w' => rfl

theorem prevA_append : ∀ (x : List Char) (prev : Bool) (y : List Char),
    prevA prev (x ++ y) = prevA (prevA prev x) y := by
  intro x
  induction x with
  | nil => intro prev y; rfl
  | cons c x' ih => intro prev y; exact ih (isWordChar c) y

theorem anyMatch_prev_true (s : List Char) : anyMatch true s = false := by
  simp [anyMatch, tokenMatch]

theorem isPrefixOf_split :
    ∀ (l : List Char) {σ x : List Char}, σ.isPrefixOf (l ++ x) = true →
      l.length ≤ σ.length →
      σ = l ++ List.drop l.length σ ∧ (List.drop l.length σ).isPrefixOf x = true := by
  intro l
  induction l with
  | nil =>
    intro σ x h _
    exact ⟨by simp, by simpa using h⟩
  | cons d l' ih =>
    intro σ x h hlen
    cases σ with
    | nil => simp at hlen
    | cons s0 σ' =>
      simp only [List.cons_append, List.isPrefixOf, Bool.and_eq_true, beq_iff_eq] at h
      obtain ⟨h1, h2⟩ := h
      subst h1
      obtain ⟨e1, e2⟩ := ih h2 (by simpa using hlen)
      refine ⟨?_, by simpa using e2⟩
      simp only [List.length_cons, List.drop_succ_cons, List.cons_append]
      rw [← e1]

theorem startsLO_of_lo_prefix {ρ X : List Char} (hρ : ρ ≠ [])
    (h : ρ.isPrefixOf ('l' :: 'o' :: X) = true) : startsLO ρ = true := by
  cases ρ with
  | nil => exact absurd rfl hρ
  | cons r1 ρ' =>
    simp only [List.isPrefixOf, Bool.and_eq_true, beq_iff_eq] at h
    obtain ⟨h1, h2⟩ := h
    subst h1
    cases ρ' with
    | nil => decide
    | cons r2 ρ'' =>
      simp only [List.isPrefixOf, Bool.and_eq_true, beq_iff_eq] at h2
      obtain ⟨h2a, _⟩ := h2
      subst h2a
      simp [startsLO, List.isPrefixOf]

theorem loClash_split :
    ∀ (w σ ρ : List Char), loClash σ = false → σ = w ++ ρ →
      ρ ≠ [] → startsLO ρ = false := by
  intro w
  induction w with
  | nil =>
    intro σ ρ hσ he hρ
    rw [List.nil_append] at he
    subst he
    cases σ with
    | nil => exact absurd rfl hρ
    | cons e σ' =>
      simp only [loClash, Bool.or_eq_false_iff] at hσ
      exact hσ.1
  | cons d w' ih =>
    intro σ ρ hσ he hρ
    subst he
    simp only [List.cons_append, loClash, Bool.or_eq_false_iff] at hσ
    exact ih (w' ++ ρ) ρ hσ.2 rfl hρ

theorem no_cross {m pat : List Char}
    (hm : m = P1 ∨ m = P2 ∨ m = P3) (hpat : pat = P1 ∨ pat = P2 ∨ pat = P3)
    (c : Char) (u' ρ X : List Char) (hsplit : m = (c :: u') ++ ρ) (hρ : ρ ≠ [])
    (hpre : ρ.isPrefixOf (pat ++ X) = true) : False := by
  have hlo : startsLO ρ = true := by
    rcases hpat with rfl | rfl | rfl
    · exact startsLO_of_lo_prefix (X := ['g', '.', 'P', 'r', 'i', 'n', 't', 'f'] ++ X)
        hρ (by simpa [P1, List.cons_append] using hpre)
    · exact startsLO_of_lo_prefix
        (X := ['g', '.', 'P', 'r', 'i', 'n', 't', 'l', 'n'] ++ X)
        hρ (by simpa [P2, List.cons_append] using hpre)
    · exact startsLO_of_lo_prefix (X := ['g', '.', 'P', 'r', 'i', 'n', 't'] ++ X)
        hρ (by simpa [P3, List.cons_append] using hpre)
  rw [List.cons_append] at hsplit
  have htail : loClash (u' ++ ρ) = false := by
    rcases hm with rfl | rfl | rfl
    · simp only [P1] at hsplit
      injection hsplit with h1 h2
      rw [← h2]
      decide
    · simp only [P2] at hsplit
      injection hsplit with h1 h2
      rw [← h2]
      decide
    · simp only [P3] at hsplit
      injection hsplit with h1 h2
      rw [← h2]
      decide
  have hfalse := loClash_split u' (u' ++ ρ) ρ htail rfl hρ
  rw [hlo] at hfalse
  exact absurd hfalse (by simp)

theorem comb_skip_pat {pat : List Char} (hpat : pat = P1 ∨ pat = P2 ∨ pat = P3)
    (prev : Bool) (v : List Char)
    (h1 : tokenMatch P1 prev (pat ++ v) = false)
    (h2 : tokenMatch P2 prev (pat ++ v) = false)
    (h3 : tokenMatch P3 prev (pat ++ v) = false) :
    combFrom prev (pat ++ v) = pat ++ combFrom true v := by
  rcases hpat with rfl | rfl | rfl
  · simp only [P1, List.cons_append, List.nil_append]
    rw [combFrom_cons,
      if_neg (by simpa [P1, List.cons_append] using h1),
      if_neg (by simpa [P1, List.cons_append] using h2),
      if_neg (by simpa [P1, List.cons_append] using h3)]
    simp [combFrom_cons, tokenMatch, List.isPrefixOf, P1, P2, P3, isWordChar]
  · simp only [P2, List.cons_append, List.nil_append]
    rw [combFrom_cons,
      if_neg (by simpa [P2, List.cons_append] using h1),
      if_neg (by simpa [P2, List.cons_append] using h2),
      if_neg (by simpa [P2, List.cons_append] using h3)]
    simp [combFrom_cons, tokenMatch, List.isPrefixOf, P1, P2, P3, isWordChar]
  · simp only [P3, List.cons_append, List.nil_append]
    rw [combFrom_cons,
      if_neg (by simpa [P3, List.cons_append] using h1),
      if_neg (by simpa [P3, List.cons_append] using h2),
      if_neg (by simpa [P3, List.cons_append] using h3)]
    simp [combFrom_cons, tokenMatch, List.isPrefixOf, P1, P2, P3, isWordChar]

theorem comb_embed {pat : List Char} (hpat : pat = P1 ∨ pat = P2 ∨ pat = P3)
    (v : List Char) :
    ∀ (n : Nat) (u : List Char) (prev : Bool), u.length ≤ n →
      anyMatch (prevA prev u) (pat ++ v) = false →
      combFrom prev (u ++ (pat ++ v)) =
        combPre prev u (pat ++ v) ++ (pat ++ combFrom true v) := by
  intro n
  induction n with
  | zero =>
    intro u prev hlen hno
    have hu : u = [] := List.length_eq_zero.mp (Nat.le_zero.mp hlen)
    subst hu
    simp only [anyMatch, Bool.or_eq_false_iff] at hno
    obtain ⟨⟨h1, h2⟩, h3⟩ := hno
    rw [List.nil_append, combPre_nil, List.nil_append]
    exact comb_skip_pat hpat prev v h1 h2 h3
  | succ n ih =>
    intro u prev hlen hno
    cases u with
    | nil =>
      simp only [anyMatch, Bool.or_eq_false_iff] at hno
      obtain ⟨⟨h1, h2⟩, h3⟩ := hno
      rw [List.nil_append, combPre_nil, List.nil_append]
      exact comb_skip_pat hpat prev v h1 h2 h3
    | cons c u' =>
      have hstep : ∀ m : List Char, (m = P1 ∨ m = P2 ∨ m = P3) →
          tokenMatch m prev (c :: (u' ++ (pat ++ v))) = true →
          m.length ≤ (c :: u').length := by
        intro m hm hmt
        by_contra hgt
        push_neg at hgt
        have hpre : m.isPrefixOf ((c :: u') ++ (pat ++ v)) = true := by
          unfold tokenMatch at hmt
          simp only [Bool.and_eq_true] at hmt
          rw [List.cons_append]
          exact hmt.1.2
        obtain ⟨hsp1, hsp2⟩ :=
          isPrefixOf_split (c :: u') hpre (Nat.le_of_lt hgt)
        have hρne : List.drop (c :: u').length m ≠ [] := by
          refine List.ne_nil_of_length_pos ?_
          rw [List.length_drop]
          omega
        exact no_cross hm hpat c u' (List.drop (c :: u').length m) v hsp1 hρne hsp2
      have hrepl : ∀ m : List Char, (m = P1 ∨ m = P2 ∨ m = P3) →
          tokenMatch m prev (c :: (u' ++ (pat ++ v))) = true →
          combFrom prev (c :: (u' ++ (pat ++ v))) =
            REP ++ combFrom true (List.drop (m.length - 1) (u' ++ (pat ++ v))) →
          combPre prev (c :: u') (pat ++ v) =
            REP ++ combPre true (List.drop (m.length - 1) u') (pat ++ v) →
          combFrom prev ((c :: u') ++ (pat ++ v)) =
            combPre prev (c :: u') (pat ++ v) ++ (pat ++ combFrom true v) := by
        intro m hm hmt hcf hcp
        have hm1 : 1 ≤ m.length := by rcases hm with rfl | rfl | rfl <;> decide
        have hle : m.length ≤ (c :: u').length := hstep m hm hmt
        have hple : m.length - 1 ≤ u'.length := by simp at hle; omega
        have hpre' : m.isPrefixOf ((c :: u') ++ (pat ++ v)) = true := by
          unfold tokenMatch at hmt
          simp only [Bool.and_eq_true] at hmt
          rw [List.cons_append]
          exact hmt.1.2
        have hpreu : m.isPrefixOf (c :: u') = true := isPrefixOf_of_append hpre' hle
        have hequ : c :: u' = m ++ List.drop m.length (c :: u') :=
          eq_append_of_isPrefixOf hpreu
        have hrem : List.drop m.length (c :: u') = List.drop (m.length - 1) u' := by
          obtain ⟨k, hk⟩ : ∃ k, m.length = k + 1 := ⟨m.length - 1, by omega⟩
          rw [hk]
          simp
        have hlrem : (List.drop (m.length - 1) u').length ≤ n := by
          rw [List.length_drop]
          simp at hlen
          omega
        have hprevm : prevA prev m = true := by
          rw [prevA_of_ne_nil prev true m
            (by rcases hm with rfl | rfl | rfl <;> decide)]
          rcases hm with rfl | rfl | rfl <;> decide
        have hno' : anyMatch (prevA true (List.drop (m.length - 1) u'))
            (pat ++ v) = false := by
          rw [hequ, prevA_append, hprevm, hrem] at hno
          exact hno
        calc combFrom prev ((c :: u') ++ (pat ++ v))
            = combFrom prev (c :: (u' ++ (pat ++ v))) := by rw [List.cons_append]
          _ = REP ++ combFrom true (List.drop (m.length - 1) (u' ++ (pat ++ v))) :=
              hcf
          _ = REP ++ combFrom true (List.drop (m.length - 1) u' ++ (pat ++ v)) := by
              rw [List.drop_append_of_le_length hple]
          _ = REP ++ (combPre true (List.drop (m.length - 1) u') (pat ++ v) ++
              (pat ++ combFrom true v)) := by
              rw [ih (List.drop (m.length - 1) u') true hlrem hno']
          _ = (REP ++ combPre true (List.drop (m.length - 1) u') (pat ++ v)) ++
              (pat ++ combFrom true v) := by
              rw [List.append_assoc]
          _ = combPre prev (c :: u') (pat ++ v) ++ (pat ++ combFrom true v) := by
              rw [hcp]
      by_cases m1 : tokenMatch P1 prev (c :: (u' ++ (pat ++ v))) = true
      · refine hrepl P1 (Or.inl rfl) m1 ?_ ?_
        · rw [combFrom_cons, if_pos m1]
        · rw [combPre_cons, if_pos m1]
      · by_cases m2 : tokenMatch P2 prev (c :: (u' ++ (pat ++ v))) = true
        · refine hrepl P2 (Or.inr (Or.inl rfl)) m2 ?_ ?_
          · rw [combFrom_cons, if_neg m1, if_pos m2]
          · rw [combPre_cons, if_neg m1, if_pos m2]
        · by_cases m3 : tokenMatch P3 prev (c :: (u' ++ (pat ++ v))) = true
          · refine hrepl P3 (Or.inr (Or.inr rfl)) m3 ?_ ?_
            · rw [combFrom_cons, if_neg m1, if_neg m2, if_pos m3]
            · rw [combPre_cons, if_neg m1, if_neg m2, if_pos m3]
          · rw [List.cons_append, combFrom_cons, if_neg m1, if_neg m2, if_neg m3,
              combPre_cons, if_neg m1, if_neg m2, if_neg m3,
              ih u' (isWordChar c) (by simp at hlen; omega) hno,
              List.cons_append]

/-- Claim C2: for every input string, an occurrence of a target
pattern embedded inside a longer identifier is left unaltered while the
rest of the string is migrated normally; only standalone-token
occurrences are replaced.  The string is `u ++ pat ++ v` where the
occurrence is immediately preceded by a word character (as in
`biglog.Printf`), or is immediately followed by a word character with
no rule having a whole-token match starting at the occurrence (as in
`log.PrintfExtra`; this proviso excludes exactly the case in which the
longer identifier is itself a target token — `log.Print` inside
`log.Printf` — which is then replaced as a standalone match of the
longer rule, the behaviour C1 requires).  The output is the migrated
prefix, the embedded occurrence verbatim, and the migrated suffix, so
whole-token occurrences elsewhere in the string are still replaced. -/
theorem migrate_embedded_unaltered (pat u v : List Char)
    (hpat : pat = P1 ∨ pat = P2 ∨ pat = P3)
    (hembed : prevA false u = true ∨
      (boundaryAfter v = false ∧ anyMatch false (pat ++ v) = false)) :
    migrateContent (u ++ (pat ++ v)) =
      combPre false u (pat ++ v) ++ (pat ++ combFrom true v) := by
  have hno : anyMatch (prevA false u) (pat ++ v) = false := by
    cases hpv : prevA false u with
    | true => exact anyMatch_prev_true _
    | false =>
      rcases hembed with h | ⟨_, h2⟩
      · rw [hpv] at h
        exact absurd h (by simp)
      · exact h2
  rw [migrate_eq_comb]
  exact comb_embed hpat v u.length u false (Nat.le_refl _) hno

/-- Witness for C2: an embedded occurrence coexisting with a standalone
one — in `biglog.Printf(x) log.Println` the embedded `log.Printf` is
preserved while the standalone `log.Println` is replaced. -/
theorem migrate_embedded_unaltered_witness :
    migrateContent ("biglog.Printf(x) log.Println".toList) =
      "biglog.Printf(x) logger.Info".toList := by
  have h := migrate_embedded_unaltered P1 ("big".toList)
    ("(x) log.Println".toList) (Or.inl rfl) (Or.inl (by decide))
  calc migrateContent ("biglog.Printf(x) log.Println".toList)
      = migrateContent ("big".toList ++ (P1 ++ "(x) log.Println".toList)) :=
        congrArg migrateContent (by decide)
    _ = combPre false ("big".toList) (P1 ++ "(x) log.Println".toList) ++
        (P1 ++ combFrom true ("(x) log.Println".toList)) := h
    _ = "biglog.Printf(x) logger.Info".toList := by decide

/-- Counterexample to C3, refuting the glossary boundary rule at two
concrete inputs.  First, the glossary counts `.` as an identifier
character, so in `x.log.Printf` the occurrence of `log.Printf` is
immediately preceded by an identifier character and the claim says it
is left unaltered — but Python's `\b` treats `.` as a non-word
character and the code replaces it.  Second, in `log.Printf` the
occurrence of `log.Print` is immediately followed by the identifier
character `f`, yet the code alters it (the whole of `log.Printf` is
replaced by the `log.Printf` rule), so a following identifier
character does not shield an occurrence from every rule — only from
its own. -/
theorem glossary_dot_counterexample :
    (glossaryIdentChar '.' = true ∧
      migrateContent ("x.log.Printf".toList) = "x.logger.Info".toList ∧
      migrateContent ("x.log.Printf".toList) ≠ "x.log.Printf".toList) ∧
    (glossaryIdentChar 'f' = true ∧
      migrateContent (P3 ++ ['f']) ≠ P3 ++ ['f']) := by
  refine ⟨⟨by decide, by decide, by decide⟩, by decide, by decide⟩

/-- Claim C3 (amended): the identifier characters relevant to the
code's whole-token boundaries are letters, digits and underscores —
dots are boundary characters (first part of the counterexample: a
dot-preceded occurrence is replaced).  An occurrence immediately
preceded by such a word character is not a whole-token match of any
rule at that position, and the migration leaves it unaltered: the
output is the migrated prefix, the occurrence verbatim, and the
migrated suffix.  An occurrence immediately followed by such a word
character is not a whole-token match of its own rule at that position
— of its own rule only, because it can lie inside a longer target
token that is replaced, as `log.Print` inside `log.Printf` (second
part of the counterexample, which forces this restriction). -/
theorem word_boundary_amended (pat u v : List Char)
    (hpat : pat = P1 ∨ pat = P2 ∨ pat = P3) :
    (prevA false u = true →
      (∀ q : List Char, q = P1 ∨ q = P2 ∨ q = P3 →
        tokenMatch q (prevA false u) (pat ++ v) = false) ∧
      migrateContent (u ++ (pat ++ v)) =
        combPre false u (pat ++ v) ++ (pat ++ combFrom true v)) ∧
    (boundaryAfter v = false → tokenMatch pat false (pat ++ v) = false) := by
  constructor
  · intro h
    constructor
    · intro q _
      rw [h]
      simp [tokenMatch]
    · rw [migrate_eq_comb]
      refine comb_embed hpat v u.length u false (Nat.le_refl _) ?_
      rw [h]
      exact anyMatch_prev_true _
  · intro h
    unfold tokenMatch
    rw [List.drop_left, h]
    simp

/-- Witness for the amended C3: in `mylog.Printf2 log.Println` the
occurrence after the word character `y` is untouched while the
standalone `log.Println` is replaced; and `log.Print` followed by the
word character `f` does not match its own rule. -/
theorem word_boundary_amended_witness :
    migrateContent ("mylog.Printf2 log.Println".toList) =
      "mylog.Printf2 logger.Info".toList ∧
    tokenMatch P3 false (P3 ++ "f(z)".toList) = false := by
  constructor
  · have h := ((word_boundary_amended P1 ("my".toList)
      ("2 log.Println".toList) (Or.inl rfl)).1 (by decide)).2
    calc migrateContent ("mylog.Printf2 log.Println".toList)
        = migrateContent ("my".toList ++ (P1 ++ "2 log.Println".toList)) :=
          congrArg migrateContent (by decide)
      _ = combPre false ("my".toList) (P1 ++ "2 log.Println".toList) ++
          (P1 ++ combFrom true ("2 log.Println".toList)) := h
      _ = "mylog.Printf2 logger.Info".toList := by decide
  · exact (word_boundary_amended P3 [] ("f(z)".toList)
      (Or.inr (Or.inr rfl))).2 (by decide)
